import Mathlib

/-!
Verification of the partitioned dense matrix-multiply-and-reduce engine of
the gprof demonstration programs (src/gprof/mpi_example.c and
src/gprof/serial_example.c).

Modelling conventions.  A dense matrix of C doubles is embedded as a total
function Nat -> Nat -> Rat; the double values arising in the claims are
small integers, exactly representable, so exact Rat arithmetic is faithful.
C functions that write through a pointer argument are embedded as functions
returning the new contents of the written matrix: a cell inside the region
the loops cover receives its new value, a cell outside keeps the previous
contents.  The square root applied at the very end of both programs is
taken over the reals in the theorem statements.  C int arguments of the
partitioner are nonnegative in every reachable call, so they are embedded
as Nat (no intermediate value exceeds the matrix size, hence no overflow).
-/

/-- Dense matrix contents: the value stored at row i, column j. -/
def Mat : Type := Nat → Nat → ℚ

/-- Embedding of compute_local_chunk from mpi_example.c: the half-open row
range (local_start, local_end) that the given rank owns. -/
def compute_local_chunk (rank size global_n : Nat) : Nat × Nat :=
  let rows_per_rank := global_n / size
  let remainder := global_n % size
  let local_start := rank * rows_per_rank + (if rank < remainder then rank else remainder)
  let local_end := local_start + rows_per_rank + (if rank < remainder then 1 else 0)
  (local_start, local_end)

/-- First component of compute_local_chunk. -/
def chunkStart (rank size global_n : Nat) : Nat := (compute_local_chunk rank size global_n).1

/-- Second component of compute_local_chunk. -/
def chunkEnd (rank size global_n : Nat) : Nat := (compute_local_chunk rank size global_n).2

/-- Number of rows the rank owns, local_end - local_start in main. -/
def localRows (rank size global_n : Nat) : Nat :=
  chunkEnd rank size global_n - chunkStart rank size global_n

/-- Embedding of allocate_matrix_local from mpi_example.c.  The C code
obtains each row with malloc and never writes a cell, so on success the
block holds whatever indeterminate values the obtained memory already
contained; these prior contents are made explicit as the parameter mem. -/
def allocate_matrix_local (mem : Mat) (rows cols : Nat) : Mat :=
  fun i j => mem i j

/-- Embedding of allocate_matrix from serial_example.c, the square n x n
variant; like the MPI variant it mallocs and never writes a cell. -/
def allocate_matrix (mem : Mat) (n : Nat) : Mat :=
  fun i j => mem i j

/-- Embedding of initialize_matrix_local from mpi_example.c: every cell of
the rows x cols block receives value, cells outside keep their contents. -/
def initialize_matrix_local (matrix : Mat) (rows cols : Nat) (value : ℚ) : Mat :=
  fun i j => if i < rows ∧ j < cols then value else matrix i j

/-- Embedding of initialize_matrix from serial_example.c (square n x n). -/
def initialize_matrix (matrix : Mat) (n : Nat) (value : ℚ) : Mat :=
  fun i j => if i < n ∧ j < n then value else matrix i j

/-- Embedding of matrix_multiply_local from mpi_example.c: C[i][j] is set
to 0.0 and then accumulated as C[i][j] += A[i][k]*B[k][j] for k = 0..n-1 in
increasing order, for i < rows and j < n; other cells of C are untouched. -/
def matrix_multiply_local (A B C : Mat) (rows n : Nat) : Mat :=
  fun i j =>
    if i < rows ∧ j < n then
      (List.range n).foldl (fun acc k => acc + A i k * B k j) 0
    else C i j

/-- Embedding of matrix_multiply from serial_example.c: the same triple
loop with rows = n. -/
def matrix_multiply (A B C : Mat) (n : Nat) : Mat :=
  fun i j =>
    if i < n ∧ j < n then
      (List.range n).foldl (fun acc k => acc + A i k * B k j) 0
    else C i j

/-- Embedding of matrix_add_local from mpi_example.c: C[i][j] = A[i][j] +
B[i][j] on the rows x cols block, other cells of C untouched. -/
def matrix_add_local (A B C : Mat) (rows cols : Nat) : Mat :=
  fun i j => if i < rows ∧ j < cols then A i j + B i j else C i j

/-- Embedding of matrix_transpose from serial_example.c: AT[i][j] = A[j][i]
on the n x n block, other cells of AT untouched. -/
def matrix_transpose (A AT : Mat) (n : Nat) : Mat :=
  fun i j => if i < n ∧ j < n then A j i else AT i j

/-- Embedding of compute_local_norm from mpi_example.c: a single running
accumulator sum += A[i][j]*A[i][j] over the block in row-major order. -/
def compute_local_norm (A : Mat) (rows cols : Nat) : ℚ :=
  (List.range rows).foldl
    (fun acc i => (List.range cols).foldl (fun s j => s + A i j * A i j) acc) 0

/-- Embedding of the running accumulator of compute_frobenius_norm from
serial_example.c, the value of sum before the final sqrt call. -/
def frobenius_sum (A : Mat) (n : Nat) : ℚ :=
  (List.range n).foldl
    (fun acc i => (List.range n).foldl (fun s j => s + A i j * A i j) acc) 0

/-- The rows x n row block of a global matrix starting at row start: the
contents a worker's local operand holds when the global matrix is split by
the partitioner. -/
def localBlock (A : Mat) (start : Nat) : Mat :=
  fun i j => A (start + i) j

/-- Embedding of MPI_Reduce with MPI_SUM over ranks 0..size-1 as the code
uses it: the root receives the sum of every rank's contribution. -/
def reduceSum (contrib : Nat → ℚ) (size : Nat) : ℚ :=
  ∑ r in Finset.range size, contrib r

/-- One worker's partial scalar in the distributed pipeline: it multiplies
its row block of the global A by the replicated B into a zeroed local
result block and takes the local sum of squares, exactly the mpi_example.c
sequence matrix_multiply_local then compute_local_norm. -/
def workerPartial (A B : Mat) (n size rank : Nat) : ℚ :=
  compute_local_norm
    (matrix_multiply_local (localBlock A (chunkStart rank size n)) B
      (fun _ _ => 0) (localRows rank size n) n)
    (localRows rank size n) n

/-- The pre-sqrt global scalar of the distributed pipeline: the reduction
over all workers of their partial sums of squares. -/
def distributedSquares (A B : Mat) (n size : Nat) : ℚ :=
  reduceSum (workerPartial A B n size) size

/-- The pre-sqrt scalar of one non-partitioned worker owning the whole
matrix: multiply into a zeroed result, then the serial sum of squares. -/
def serialSquares (A B : Mat) (n : Nat) : ℚ :=
  frobenius_sum (matrix_multiply A B (fun _ _ => 0) n) n

/-- State of the three matrices a local kernel touches: the two operand
blocks and the output block. -/
structure MState where
  A : Mat
  B : Mat
  C : Mat

/-- matrix_multiply_local as a transformer of the whole three-matrix state:
the C code stores only through the C pointer. -/
def matrix_multiply_local_run (s : MState) (rows n : Nat) : MState :=
  ⟨s.A, s.B, matrix_multiply_local s.A s.B s.C rows n⟩

/-- matrix_add_local as a transformer of the whole three-matrix state. -/
def matrix_add_local_run (s : MState) (rows cols : Nat) : MState :=
  ⟨s.A, s.B, matrix_add_local s.A s.B s.C rows cols⟩

/-- compute_local_norm as a state transformer: it returns a scalar and
stores through no pointer at all. -/
def compute_local_norm_run (s : MState) (rows cols : Nat) : ℚ × MState :=
  (compute_local_norm s.A rows cols, s)

/-- Observable outcome of one program run: an abort with a nonzero exit
status before any allocation or computation, or completion carrying the
pre-sqrt value of the scalar the program prints. -/
inductive RunOutcome where
  | aborted : Nat → RunOutcome
  | completed : ℚ → RunOutcome
deriving DecidableEq

/-- The computation serial_example.c's main performs for size n: A
initialized to 1.0, B to 2.0, C zeroed, C = A * B, then the sum of squares
of C (the program prints sqrt of this value). -/
def serial_run (n : Nat) : ℚ :=
  frobenius_sum
    (matrix_multiply (initialize_matrix (fun _ _ => 0) n 1)
      (initialize_matrix (fun _ _ => 0) n 2)
      (initialize_matrix (fun _ _ => 0) n 0) n) n

/-- Entry boundary of serial_example.c's main: an argument parsed to a
non-positive value aborts with exit status 1 before any allocation; absent
argument means the default size 500. -/
def serial_main (arg : Option Int) : RunOutcome :=
  match arg with
  | some a => if a ≤ 0 then RunOutcome.aborted 1 else RunOutcome.completed (serial_run a.toNat)
  | none => RunOutcome.completed (serial_run 500)

/-- One rank's partial scalar in mpi_example.c's main for size n: its
local_rows x n block of A initialized to 1.0, the replicated B to 2.0, the
local result zeroed, then multiply and local norm. -/
def mpi_rank_contrib (n size rank : Nat) : ℚ :=
  compute_local_norm
    (matrix_multiply_local
      (initialize_matrix_local (fun _ _ => 0) (localRows rank size n) n 1)
      (initialize_matrix_local (fun _ _ => 0) n n 2)
      (initialize_matrix_local (fun _ _ => 0) (localRows rank size n) n 0)
      (localRows rank size n) n)
    (localRows rank size n) n

/-- The value MPI_Reduce delivers to rank 0 in mpi_example.c's main. -/
def mpi_run (n size : Nat) : ℚ :=
  reduceSum (mpi_rank_contrib n size) size

/-- Entry boundary of mpi_example.c's main, for a given communicator size:
a non-positive parsed size makes every rank return 1 before any
allocation; absent argument means the default size 500. -/
def mpi_main (size : Nat) (arg : Option Int) : RunOutcome :=
  match arg with
  | some a => if a ≤ 0 then RunOutcome.aborted 1 else RunOutcome.completed (mpi_run a.toNat size)
  | none => RunOutcome.completed (mpi_run 500 size)

/-- The n = 2 scenario matrix: C = A * B with A all 1.0 and B all 2.0,
built by the mpi_example.c kernels on freshly initialized blocks. -/
def scenarioC : Mat :=
  matrix_multiply_local
    (initialize_matrix_local (fun _ _ => 0) 2 2 1)
    (initialize_matrix_local (fun _ _ => 0) 2 2 2)
    (initialize_matrix_local (fun _ _ => 0) 2 2 0) 2 2

/-- Concrete matrix used to instantiate universally quantified theorems. -/
def exM1 : Mat := fun i j => (i : ℚ) + (j : ℚ)

/-- Concrete constant matrix with value 2. -/
def exM2 : Mat := fun _ _ => 2

/-- Concrete zero matrix. -/
def exM0 : Mat := fun _ _ => 0

/-- Concrete constant matrix with value 7, a second distinct prior state. -/
def exM7 : Mat := fun _ _ => 7

/-- Row contribution of the full product to the global sum of squares: the
sum over columns of the squared dot-product entries of row i. -/
def prodEntrySq (A B : Mat) (n i : Nat) : ℚ :=
  ∑ j in Finset.range n,
    (∑ k in Finset.range n, A i k * B k j) * (∑ k in Finset.range n, A i k * B k j)

/-! Lemmas about the partitioner boundaries. -/

/-- One rank's local_end is the next rank's local_start. -/
theorem chunkEnd_eq (r P n : Nat) : chunkEnd r P n = chunkStart (r + 1) P n := by
  simp only [chunkEnd, chunkStart, compute_local_chunk, add_one_mul]
  generalize r * (n / P) = a
  generalize n / P = q
  generalize n % P = m
  split_ifs <;> omega

/-- Rank 0 starts at row 0. -/
theorem chunkStart_zero (P n : Nat) : chunkStart 0 P n = 0 := by
  simp only [chunkStart, compute_local_chunk, Nat.zero_mul, Nat.zero_add]
  generalize n % P = m
  split_ifs <;> omega

/-- A rank's range has nonnegative extent. -/
theorem chunkStart_le_chunkEnd (r P n : Nat) : chunkStart r P n ≤ chunkEnd r P n := by
  simp only [chunkEnd, chunkStart, compute_local_chunk]
  generalize r * (n / P) = a
  generalize n / P = q
  generalize n % P = m
  split_ifs <;> omega

/-- The virtual boundary after the last rank is exactly n. -/
theorem chunkStart_top (P n : Nat) (hP : 1 ≤ P) : chunkStart P P n = n := by
  have hlt : n % P < P := Nat.mod_lt _ hP
  simp only [chunkStart, compute_local_chunk]
  rw [if_neg (by omega)]
  exact Nat.div_add_mod n P

/-- Boundaries are monotone in the rank. -/
theorem chunkStart_mono (P n : Nat) : Monotone fun r => chunkStart r P n :=
  monotone_nat_of_le_succ fun r => by
    rw [← chunkEnd_eq]; exact chunkStart_le_chunkEnd r P n

/-- A monotone boundary sequence crosses every value between its first and
last boundaries inside some step. -/
theorem exists_cross (f : Nat → Nat) (hf : ∀ r, f r ≤ f (r + 1)) :
    ∀ P i, f 0 ≤ i → i < f P → ∃ r, r < P ∧ f r ≤ i ∧ i < f (r + 1) := by
  intro P
  induction P with
  | zero => intro i h0 h; omega
  | succ P ih =>
    intro i h0 hP
    by_cases h : i < f P
    · obtain ⟨r, hr, h1, h2⟩ := ih i h0 h
      exact ⟨r, Nat.lt_succ_of_lt hr, h1, h2⟩
    · exact ⟨P, Nat.lt_succ_self P, Nat.le_of_not_lt h, hP⟩

/-- Claim C1: for every n and every workerCount of at least 1, the row
ranges produced by compute_local_chunk over all worker ids are pairwise
disjoint and their union is exactly the interval from 0 to n: every row
index below n lies in exactly one worker's range, and every range stays
below n (so for n smaller than the worker count some ranges are empty, and
for n = 0 all are). -/
theorem compute_local_chunk_partition (n P : Nat) (hP : 1 ≤ P) :
    (∀ i, i < n → ∃! r, r < P ∧ chunkStart r P n ≤ i ∧ i < chunkEnd r P n) ∧
    (∀ r, r < P → chunkEnd r P n ≤ n) := by
  have hmono : Monotone fun r => chunkStart r P n := chunkStart_mono P n
  constructor
  · intro i hi
    have h0 : chunkStart 0 P n ≤ i := by rw [chunkStart_zero]; omega
    have hn : i < chunkStart P P n := by rw [chunkStart_top P n hP]; exact hi
    obtain ⟨r, hrP, h1, h2⟩ :=
      exists_cross (fun r => chunkStart r P n)
        (fun r => by
          show chunkStart r P n ≤ chunkStart (r + 1) P n
          rw [← chunkEnd_eq]
          exact chunkStart_le_chunkEnd r P n) P i h0 hn
    refine ⟨r, ⟨hrP, h1, by rw [chunkEnd_eq]; exact h2⟩, ?_⟩
    rintro r2 ⟨hr2P, h3, h4⟩
    rw [chunkEnd_eq] at h4
    by_contra hne
    rcases Nat.lt_or_ge r2 r with hlt | hge
    · have hm : chunkStart (r2 + 1) P n ≤ chunkStart r P n := hmono (by omega)
      omega
    · have hlt2 : r < r2 := by omega
      have hm : chunkStart (r + 1) P n ≤ chunkStart r2 P n := hmono (by omega)
      omega
  · intro r hr
    rw [chunkEnd_eq]
    have h2 : chunkStart (r + 1) P n ≤ chunkStart P P n := hmono (by omega)
    rw [chunkStart_top P n hP] at h2
    exact h2

/-- Witness for C1 at n = 4, workerCount = 3. -/
theorem compute_local_chunk_partition_witness :
    1 ≤ 3 ∧
    ((∀ i, i < 4 → ∃! r, r < 3 ∧ chunkStart r 3 4 ≤ i ∧ i < chunkEnd r 3 4) ∧
     (∀ r, r < 3 → chunkEnd r 3 4 ≤ 4)) :=
  ⟨by decide, compute_local_chunk_partition 4 3 (by decide)⟩

/-- Claim C2: on every valid input the partitioner returns exactly the
start and end of the specified closed formula (start is workerId times the
base share plus the minimum of workerId and the remainder; the extent is
the base share plus one exactly for workerId below the remainder); any two
workers' row counts differ by at most 1, the remainder rows going to the
lowest-indexed workers, and n = 4 with workerCount = 3 yields the ranges
from 0 to 2, from 2 to 3 and from 3 to 4. -/
theorem compute_local_chunk_formula (r P n : Nat) (hr : r < P) :
    compute_local_chunk r P n =
      (r * (n / P) + min r (n % P),
       r * (n / P) + min r (n % P) + n / P + (if r < n % P then 1 else 0)) ∧
    localRows r P n = n / P + (if r < n % P then 1 else 0) ∧
    (∀ r2, r2 < P → localRows r P n ≤ localRows r2 P n + 1) ∧
    (compute_local_chunk 0 3 4 = (0, 2) ∧ compute_local_chunk 1 3 4 = (2, 3) ∧
      compute_local_chunk 2 3 4 = (3, 4)) := by
  have hrows : ∀ r2, localRows r2 P n = n / P + (if r2 < n % P then 1 else 0) := by
    intro r2
    simp only [localRows, chunkEnd, chunkStart, compute_local_chunk]
    generalize r2 * (n / P) = a
    generalize n / P = q
    generalize n % P = m
    split_ifs <;> omega
  refine ⟨?_, hrows r, ?_, by decide⟩
  · simp only [compute_local_chunk, Prod.mk.injEq, Nat.min_def]
    constructor <;>
      · generalize r * (n / P) = a
        generalize n / P = q
        generalize n % P = m
        split_ifs <;> omega
  · intro r2 h2
    rw [hrows r, hrows r2]
    split_ifs <;> omega

/-- Witness for C2 at workerId = 1, workerCount = 3, n = 4. -/
theorem compute_local_chunk_formula_witness :
    1 < 3 ∧
    (compute_local_chunk 1 3 4 =
      (1 * (4 / 3) + min 1 (4 % 3),
       1 * (4 / 3) + min 1 (4 % 3) + 4 / 3 + (if 1 < 4 % 3 then 1 else 0)) ∧
     localRows 1 3 4 = 4 / 3 + (if 1 < 4 % 3 then 1 else 0) ∧
     (∀ r2, r2 < 3 → localRows 1 3 4 ≤ localRows r2 3 4 + 1) ∧
     (compute_local_chunk 0 3 4 = (0, 2) ∧ compute_local_chunk 1 3 4 = (2, 3) ∧
       compute_local_chunk 2 3 4 = (3, 4))) :=
  ⟨by decide, compute_local_chunk_formula 1 3 4 (by decide)⟩

/-! Lemmas relating the running-accumulator loops to mathematical sums. -/

/-- A left fold that only adds terms equals the initial accumulator plus
the list sum of the terms. -/
theorem foldl_add_eq_sum (g : Nat → ℚ) : ∀ (l : List Nat) (c : ℚ),
    l.foldl (fun a k => a + g k) c = c + (l.map g).sum := by
  intro l
  induction l with
  | nil => intro c; simp
  | cons x xs ih =>
    intro c
    simp only [List.foldl_cons, List.map_cons, List.sum_cons, ih]
    ring

/-- The list sum over an increasing index range is the Finset sum. -/
theorem sum_map_range (g : Nat → ℚ) (n : Nat) :
    ((List.range n).map g).sum = ∑ k in Finset.range n, g k := by
  induction n with
  | zero => simp
  | succ n ih => rw [List.range_succ]; simp [ih, Finset.sum_range_succ]

/-- The inner accumulation loop of the multiply kernels computes the dot
product of row i of A with column j of B. -/
theorem dot_eq_sum (A B : Mat) (i j n : Nat) :
    (List.range n).foldl (fun acc k => acc + A i k * B k j) 0
      = ∑ k in Finset.range n, A i k * B k j := by
  have h := foldl_add_eq_sum (fun k => A i k * B k j) (List.range n) 0
  simpa [sum_map_range] using h

/-- The single running accumulator of compute_local_norm computes the
double sum of squared entries over the block. -/
theorem norm_eq_sum (A : Mat) (rows cols : Nat) :
    compute_local_norm A rows cols
      = ∑ i in Finset.range rows, ∑ j in Finset.range cols, A i j * A i j := by
  unfold compute_local_norm
  have h1 : (fun (acc : ℚ) i => (List.range cols).foldl (fun s j => s + A i j * A i j) acc)
      = fun (acc : ℚ) i => acc + ∑ j in Finset.range cols, A i j * A i j := by
    funext acc i
    have h := foldl_add_eq_sum (fun j => A i j * A i j) (List.range cols) acc
    simpa [sum_map_range] using h
  rw [h1]
  have h2 := foldl_add_eq_sum
    (fun i => ∑ j in Finset.range cols, A i j * A i j) (List.range rows) 0
  simpa [sum_map_range] using h2

/-- The serial accumulator is the same loop as the local one. -/
theorem frobenius_sum_eq_norm (A : Mat) (n : Nat) :
    frobenius_sum A n = compute_local_norm A n n := rfl

/-- Inside the block, a cell of the local multiply result is the dot
product of the corresponding rows and columns. -/
theorem matrix_multiply_local_entry (A B C : Mat) (rows n i j : Nat)
    (hi : i < rows) (hj : j < n) :
    matrix_multiply_local A B C rows n i j = ∑ k in Finset.range n, A i k * B k j := by
  simp only [matrix_multiply_local]
  rw [if_pos ⟨hi, hj⟩]
  exact dot_eq_sum A B i j n

/-- Inside the n x n region, a cell of the serial multiply result is the
dot product of the corresponding rows and columns. -/
theorem matrix_multiply_entry_aux (A B C : Mat) (n i j : Nat)
    (hi : i < n) (hj : j < n) :
    matrix_multiply A B C n i j = ∑ k in Finset.range n, A i k * B k j := by
  simp only [matrix_multiply]
  rw [if_pos ⟨hi, hj⟩]
  exact dot_eq_sum A B i j n

/-- Claim C3: for every input block, both multiply kernels write at each
cell of the output block the value accumulated over the contraction index
k in increasing order starting from 0.0, and that value equals the sum
over k of A[i][k] times B[k][j]. -/
theorem matrix_multiply_entry_spec :
    (∀ (A B C : Mat) (rows n i j : Nat), i < rows → j < n →
        matrix_multiply_local A B C rows n i j
          = (List.range n).foldl (fun acc k => acc + A i k * B k j) 0 ∧
        matrix_multiply_local A B C rows n i j
          = ∑ k in Finset.range n, A i k * B k j) ∧
    (∀ (A B C : Mat) (n i j : Nat), i < n → j < n →
        matrix_multiply A B C n i j = ∑ k in Finset.range n, A i k * B k j) := by
  refine ⟨fun A B C rows n i j hi hj => ⟨?_, matrix_multiply_local_entry A B C rows n i j hi hj⟩,
    fun A B C n i j hi hj => matrix_multiply_entry_aux A B C n i j hi hj⟩
  simp only [matrix_multiply_local]
  rw [if_pos ⟨hi, hj⟩]

/-- Witness for C3 at a concrete 1 x 2 block. -/
theorem matrix_multiply_entry_spec_witness :
    (matrix_multiply_local exM1 exM2 exM0 1 2 0 1
        = (List.range 2).foldl (fun acc k => acc + exM1 0 k * exM2 k 1) 0 ∧
     matrix_multiply_local exM1 exM2 exM0 1 2 0 1
        = ∑ k in Finset.range 2, exM1 0 k * exM2 k 1) :=
  matrix_multiply_entry_spec.1 exM1 exM2 exM0 1 2 0 1 (by decide) (by decide)

/-- Claim C5: in the n = 2 scenario with A all 1.0 and B all 2.0 the
product has every cell 4.0, the sum of squares is 64.0, and the final norm
is exactly 8.0 (all values exactly representable). -/
theorem scenario_n2_exact :
    (scenarioC 0 0 = 4 ∧ scenarioC 0 1 = 4 ∧ scenarioC 1 0 = 4 ∧ scenarioC 1 1 = 4) ∧
    compute_local_norm scenarioC 2 2 = 64 ∧
    Real.sqrt ((compute_local_norm scenarioC 2 2 : ℚ) : ℝ) = 8 := by
  have hnorm : compute_local_norm scenarioC 2 2 = 64 := by
    norm_num [compute_local_norm, scenarioC, matrix_multiply_local,
      initialize_matrix_local, List.range_succ]
  refine ⟨⟨?_, ?_, ?_, ?_⟩, hnorm, ?_⟩
  · norm_num [scenarioC, matrix_multiply_local, initialize_matrix_local, List.range_succ]
  · norm_num [scenarioC, matrix_multiply_local, initialize_matrix_local, List.range_succ]
  · norm_num [scenarioC, matrix_multiply_local, initialize_matrix_local, List.range_succ]
  · norm_num [scenarioC, matrix_multiply_local, initialize_matrix_local, List.range_succ]
  · rw [hnorm]
    rw [show (((64 : ℚ) : ℝ)) = 8 ^ 2 by norm_num]
    exact Real.sqrt_sq (by norm_num)

/-- Claim C8: the multiply and add kernels leave both operand matrices
unchanged and write only cells of the declared output block, and the norm
kernel changes no matrix at all; each is a pure total function of the
three-matrix state. -/
theorem local_kernels_frame (A B C : Mat) (rows n cols : Nat) :
    ((matrix_multiply_local_run ⟨A, B, C⟩ rows n).A = A ∧
     (matrix_multiply_local_run ⟨A, B, C⟩ rows n).B = B ∧
     (∀ i j, ¬(i < rows ∧ j < n) →
        (matrix_multiply_local_run ⟨A, B, C⟩ rows n).C i j = C i j)) ∧
    ((matrix_add_local_run ⟨A, B, C⟩ rows cols).A = A ∧
     (matrix_add_local_run ⟨A, B, C⟩ rows cols).B = B ∧
     (∀ i j, ¬(i < rows ∧ j < cols) →
        (matrix_add_local_run ⟨A, B, C⟩ rows cols).C i j = C i j)) ∧
    compute_local_norm_run ⟨A, B, C⟩ rows cols = (compute_local_norm A rows cols, ⟨A, B, C⟩) := by
  refine ⟨⟨rfl, rfl, fun i j h => ?_⟩, ⟨rfl, rfl, fun i j h => ?_⟩, rfl⟩
  · simp only [matrix_multiply_local_run, matrix_multiply_local]
    rw [if_neg h]
  · simp only [matrix_add_local_run, matrix_add_local]
    rw [if_neg h]

/-- Witness for C8 at concrete matrices and block shape 1 x 2. -/
theorem local_kernels_frame_witness :
    ((matrix_multiply_local_run ⟨exM1, exM2, exM7⟩ 1 2).A = exM1 ∧
     (matrix_multiply_local_run ⟨exM1, exM2, exM7⟩ 1 2).B = exM2 ∧
     (∀ i j, ¬(i < 1 ∧ j < 2) →
        (matrix_multiply_local_run ⟨exM1, exM2, exM7⟩ 1 2).C i j = exM7 i j)) ∧
    ((matrix_add_local_run ⟨exM1, exM2, exM7⟩ 1 3).A = exM1 ∧
     (matrix_add_local_run ⟨exM1, exM2, exM7⟩ 1 3).B = exM2 ∧
     (∀ i j, ¬(i < 1 ∧ j < 3) →
        (matrix_add_local_run ⟨exM1, exM2, exM7⟩ 1 3).C i j = exM7 i j)) ∧
    compute_local_norm_run ⟨exM1, exM2, exM7⟩ 1 3
      = (compute_local_norm exM1 1 3, ⟨exM1, exM2, exM7⟩) :=
  local_kernels_frame exM1 exM2 exM7 1 2 3

/-- Claim C9: applying matrix_transpose twice gives back the original
matrix on the whole n x n region, so transposition is an involution. -/
theorem matrix_transpose_involution (A AT AT2 : Mat) (n i j : Nat)
    (hi : i < n) (hj : j < n) :
    matrix_transpose (matrix_transpose A AT n) AT2 n i j = A i j := by
  simp only [matrix_transpose]
  rw [if_pos ⟨hi, hj⟩, if_pos ⟨hj, hi⟩]

/-- Witness for C9 at a concrete matrix, n = 2, cell (0, 1). -/
theorem matrix_transpose_involution_witness :
    matrix_transpose (matrix_transpose exM1 exM2 2) exM7 2 0 1 = exM1 0 1 :=
  matrix_transpose_involution exM1 exM2 exM7 2 0 1 (by decide) (by decide)

/-- Claim C10: both initialize kernels write the constant into every cell
of the block, so the resulting block does not depend on the block's prior
contents: two runs from any two prior states agree on the whole block. -/
theorem initialize_constant_independent (M1 M2 : Mat) (rows cols n : Nat) (v : ℚ)
    (i j : Nat) (hi : i < rows) (hj : j < cols) :
    initialize_matrix_local M1 rows cols v i j = v ∧
    initialize_matrix_local M1 rows cols v i j = initialize_matrix_local M2 rows cols v i j ∧
    (∀ i2 j2, i2 < n → j2 < n →
      initialize_matrix M1 n v i2 j2 = v ∧
      initialize_matrix M1 n v i2 j2 = initialize_matrix M2 n v i2 j2) := by
  refine ⟨?_, ?_, fun i2 j2 h1 h2 => ⟨?_, ?_⟩⟩ <;>
    simp [initialize_matrix_local, initialize_matrix, hi, hj, *]

/-- Witness for C10 at two distinct concrete prior states. -/
theorem initialize_constant_independent_witness :
    initialize_matrix_local exM1 2 3 5 1 2 = 5 ∧
    initialize_matrix_local exM1 2 3 5 1 2 = initialize_matrix_local exM7 2 3 5 1 2 ∧
    (∀ i2 j2, i2 < 2 → j2 < 2 →
      initialize_matrix exM1 2 5 i2 j2 = 5 ∧
      initialize_matrix exM1 2 5 i2 j2 = initialize_matrix exM7 2 5 i2 j2) :=
  initialize_constant_independent exM1 exM7 2 3 2 5 1 2 (by decide) (by decide)

/-- Counterexample to claim C4 as stated: a successfully allocated 1 x 1
block whose obtained memory previously held the value 2 has a nonzero cell
in both the MPI and the serial allocator, because malloc does not clear
the memory it returns. -/
theorem allocate_zero_init_cex :
    allocate_matrix_local exM2 1 1 0 0 ≠ 0 ∧ allocate_matrix exM2 1 0 0 ≠ 0 := by
  constructor <;> norm_num [allocate_matrix_local, allocate_matrix, exM2]

/-- Claim C4 amended: for every shape for which allocation succeeds, both
allocators return a block whose cells hold the indeterminate prior
contents of the obtained memory, not zeroes; every cell of the block holds
0.0 only after the separate initialize call with value 0.0 that the
programs perform before using a result block. -/
theorem allocate_indeterminate_then_init_zero (mem : Mat) (rows cols n i j : Nat)
    (hi : i < rows) (hj : j < cols) :
    allocate_matrix_local mem rows cols i j = mem i j ∧
    initialize_matrix_local (allocate_matrix_local mem rows cols) rows cols 0 i j = 0 ∧
    (∀ i2 j2, i2 < n → j2 < n →
      allocate_matrix mem n i2 j2 = mem i2 j2 ∧
      initialize_matrix (allocate_matrix mem n) n 0 i2 j2 = 0) := by
  refine ⟨rfl, ?_, fun i2 j2 h1 h2 => ⟨rfl, ?_⟩⟩ <;>
    simp [initialize_matrix_local, initialize_matrix, hi, hj, *]

/-- Witness for the amended C4 at a concrete 2 x 3 block. -/
theorem allocate_indeterminate_then_init_zero_witness :
    allocate_matrix_local exM7 2 3 1 2 = exM7 1 2 ∧
    initialize_matrix_local (allocate_matrix_local exM7 2 3) 2 3 0 1 2 = 0 ∧
    (∀ i2 j2, i2 < 2 → j2 < 2 →
      allocate_matrix exM7 2 i2 j2 = exM7 i2 j2 ∧
      initialize_matrix (allocate_matrix exM7 2) 2 0 i2 j2 = 0) :=
  allocate_indeterminate_then_init_zero exM7 2 3 2 1 2 (by decide) (by decide)

/-- Claim C7: a supplied non-positive matrix size is detected at the entry
boundary of both programs, which abort the run with exit status 1; the
outcome carries no computed result, and in the model no allocation or
computation happens on that path. -/
theorem nonpositive_size_aborts (a : Int) (h : a ≤ 0) :
    serial_main (some a) = RunOutcome.aborted 1 ∧
    ∀ P, mpi_main P (some a) = RunOutcome.aborted 1 := by
  constructor
  · simp [serial_main, h]
  · intro P; simp [mpi_main, h]

/-- Witness for C7 at the supplied size -7. -/
theorem nonpositive_size_aborts_witness :
    (-7 : Int) ≤ 0 ∧
    (serial_main (some (-7)) = RunOutcome.aborted 1 ∧
     ∀ P, mpi_main P (some (-7)) = RunOutcome.aborted 1) :=
  ⟨by decide, nonpositive_size_aborts (-7) (by decide)⟩

/-- A rank's start plus its row count is its end. -/
theorem chunkStart_add_localRows (r P n : Nat) :
    chunkStart r P n + localRows r P n = chunkEnd r P n := by
  have h := chunkStart_le_chunkEnd r P n
  simp only [localRows]
  omega

/-- Summing the per-range contributions over consecutive monotone
boundaries telescopes to the contribution of the whole interval. -/
theorem sum_Ico_boundaries (f : Nat → ℚ) (s : Nat → Nat) (hs : ∀ r, s r ≤ s (r + 1)) :
    ∀ P, ∑ r in Finset.range P, ∑ i in Finset.Ico (s r) (s (r + 1)), f i
      = ∑ i in Finset.Ico (s 0) (s P), f i := by
  intro P
  induction P with
  | zero => simp
  | succ P ih =>
    rw [Finset.sum_range_succ, ih, Finset.sum_Ico_consecutive]
    · exact monotone_nat_of_le_succ hs (Nat.zero_le P)
    · exact hs P

/-- One worker's partial scalar is the global sum-of-squares contribution
of exactly the rows in its range. -/
theorem workerPartial_eq_Ico (A B : Mat) (n P r : Nat) :
    workerPartial A B n P r
      = ∑ i in Finset.Ico (chunkStart r P n) (chunkEnd r P n), prodEntrySq A B n i := by
  unfold workerPartial
  rw [norm_eq_sum]
  have hcells : ∑ i in Finset.range (localRows r P n), ∑ j in Finset.range n,
      matrix_multiply_local (localBlock A (chunkStart r P n)) B (fun _ _ => 0)
          (localRows r P n) n i j *
        matrix_multiply_local (localBlock A (chunkStart r P n)) B (fun _ _ => 0)
          (localRows r P n) n i j
      = ∑ i in Finset.range (localRows r P n), prodEntrySq A B n (chunkStart r P n + i) := by
    apply Finset.sum_congr rfl
    intro i hi
    unfold prodEntrySq
    apply Finset.sum_congr rfl
    intro j hj
    rw [matrix_multiply_local_entry _ _ _ _ _ _ _ (Finset.mem_range.mp hi) (Finset.mem_range.mp hj)]
    simp [localBlock]
  rw [hcells, Finset.sum_Ico_eq_sum_range]
  have hlen : chunkEnd r P n - chunkStart r P n = localRows r P n := by
    simp only [localRows]
  rw [hlen]

/-- Claim C6: for every global pair of operands, every size and every
worker count of at least 1, the distributed pipeline (each worker
multiplying its partitioned row block by the replicated B, taking the
local sum of squares, and reducing the partial scalars by summation at the
root) yields exactly the scalar of one non-partitioned worker multiplying
the whole matrix and summing the squares, both before and after the final
square root; with worker count 1 this is the serial program's result. -/
theorem distributed_eq_serial (A B : Mat) (n P : Nat) (hP : 1 ≤ P) :
    distributedSquares A B n P = serialSquares A B n ∧
    Real.sqrt ((distributedSquares A B n P : ℚ) : ℝ)
      = Real.sqrt ((serialSquares A B n : ℚ) : ℝ) := by
  have key : distributedSquares A B n P = serialSquares A B n := by
    unfold distributedSquares reduceSum
    calc
      ∑ r in Finset.range P, workerPartial A B n P r
          = ∑ r in Finset.range P,
              ∑ i in Finset.Ico (chunkStart r P n) (chunkStart (r + 1) P n),
                prodEntrySq A B n i := by
            apply Finset.sum_congr rfl
            intro r _
            rw [workerPartial_eq_Ico, chunkEnd_eq]
      _ = ∑ i in Finset.Ico (chunkStart 0 P n) (chunkStart P P n), prodEntrySq A B n i :=
            sum_Ico_boundaries (prodEntrySq A B n) (fun r => chunkStart r P n)
              (fun r => by
                show chunkStart r P n ≤ chunkStart (r + 1) P n
                rw [← chunkEnd_eq]
                exact chunkStart_le_chunkEnd r P n) P
      _ = ∑ i in Finset.range n, prodEntrySq A B n i := by
            rw [chunkStart_zero, chunkStart_top P n hP, ← Nat.Ico_zero_eq_range]
      _ = serialSquares A B n := by
            unfold serialSquares
            rw [frobenius_sum_eq_norm, norm_eq_sum]
            apply Finset.sum_congr rfl
            intro i hi
            unfold prodEntrySq
            apply Finset.sum_congr rfl
            intro j hj
            rw [matrix_multiply_entry_aux A B _ n i j
              (Finset.mem_range.mp hi) (Finset.mem_range.mp hj)]
  exact ⟨key, by rw [key]⟩

/-- Witness for C6 at concrete operands, n = 3, workerCount = 2. -/
theorem distributed_eq_serial_witness :
    1 ≤ 2 ∧
    (distributedSquares exM1 exM2 3 2 = serialSquares exM1 exM2 3 ∧
     Real.sqrt ((distributedSquares exM1 exM2 3 2 : ℚ) : ℝ)
       = Real.sqrt ((serialSquares exM1 exM2 3 : ℚ) : ℝ)) :=
  ⟨by decide, distributed_eq_serial exM1 exM2 3 2 (by decide)⟩
